import Mathlib

/-!
# Verification of the redcon RESP codec and connection loop

A shallow embedding of `src/resp.rs` and `src/conn.rs`.  Rust `String`s are
modelled as their UTF-8 byte sequences (`List Nat`, each entry one byte),
byte streams as `List Nat`, and the fallible async readers as functions
returning `Except`.
-/

namespace Redcon

/-- The `Type` enum of src/resp.rs (named `RespType`; `Type` is reserved
in Lean).  A Rust `String` payload is represented by its UTF-8 bytes. -/
inductive RespType where
  | simpleString (s : List Nat)
  | error (s : List Nat)
  | integer (n : Int)
  | bulkString (s : List Nat)
  | null
  | array (xs : List RespType)
  deriving Repr, Inhabited

mutual

/-- Boolean equality on `RespType` (the derived `PartialEq` of the Rust
enum); the basis for the `DecidableEq` instance below. -/
def RespType.beq : RespType → RespType → Bool
  | .simpleString a, .simpleString b => a == b
  | .error a, .error b => a == b
  | .integer a, .integer b => a == b
  | .bulkString a, .bulkString b => a == b
  | .null, .null => true
  | .array a, .array b => RespType.beqList a b
  | _, _ => false
termination_by structural v => v

/-- Elementwise `RespType.beq` on lists. -/
def RespType.beqList : List RespType → List RespType → Bool
  | [], [] => true
  | x :: xs, y :: ys => RespType.beq x y && RespType.beqList xs ys
  | _, _ => false
termination_by structural xs => xs

end

/-- The two variants of `resp::Error` plus the other failure modes that
`Type::read` can surface through `anyhow::Result` (each `bail!`/`?` site
gets its own constructor, so the conditions stay distinguishable). -/
inductive DecodeError where
  /-- `resp::Error::UnexpectedEof`: `read_until` returned zero bytes. -/
  | unexpectedEof
  /-- `resp::Error::ExpectedLine`: a line (or bulk payload) lacks the CRLF
  terminator. -/
  | expectedLine
  /-- `String::from_utf8` failed (the "expected utf-8" path or the bulk
  payload conversion). -/
  | invalidUtf8
  /-- `str::parse` failed on an integer or length field. -/
  | invalidInt
  /-- `read_exact` hit end of stream while reading a bulk payload
  (`std::io::ErrorKind::UnexpectedEof`, not `resp::Error`). -/
  | readEof
  /-- the `bail!("unknown type")` arm. -/
  | unknownType
  deriving Repr, DecidableEq

/-- The CRLF line terminator. -/
def CRLF : List Nat := [13, 10]

/-- Little-endian base-10 digits of `n`, computed with explicit fuel so it
evaluates inside the kernel; `digitsLE_eq_digits` identifies it with
`Nat.digits 10`. -/
def digitsLE : Nat → Nat → List Nat
  | 0, _ => []
  | _ + 1, 0 => []
  | fuel + 1, n + 1 => (n + 1) % 10 :: digitsLE fuel ((n + 1) / 10)

/-- Decimal digit bytes of a natural number, most significant first:
`usize::to_string` and the digits of `i64::to_string`. -/
def natToDec (n : Nat) : List Nat :=
  if n = 0 then [48] else (digitsLE n n).reverse.map (fun d => d + 48)

/-- `i64::to_string` as bytes: an optional minus sign then the decimal
digits of the absolute value. -/
def intToDec (n : Int) : List Nat :=
  if n < 0 then 45 :: natToDec n.natAbs else natToDec n.toNat

/-- The bytes produced by the local `write_line` helper of
`Type::write_buf`: tag byte, body, CRLF. -/
def writeLine (tag : Nat) (buf : List Nat) : List Nat :=
  tag :: buf ++ CRLF

mutual

/-- `Type::write_buf` (src/resp.rs): the bytes this value contributes to
the `BufWriter`. -/
def writeBuf : RespType → List Nat
  | .simpleString s => writeLine 43 s
  | .error s => writeLine 45 s
  | .integer n => writeLine 58 (intToDec n)
  | .bulkString s => writeLine 36 (natToDec s.length) ++ s ++ CRLF
  | .array xs => writeLine 42 (natToDec xs.length) ++ writeBufList xs
  | .null => writeLine 36 [45, 49]
termination_by structural v => v

/-- The `for elem in elements` loop of the `Array` arm of `write_buf`. -/
def writeBufList : List RespType → List Nat
  | [] => []
  | x :: xs => writeBuf x ++ writeBufList xs
termination_by structural xs => xs

end

/-- `read_until(b'\n', ..)`: all bytes up to and including the first LF
(or the whole stream if it holds no LF), paired with the rest. -/
def readUntil : List Nat → List Nat × List Nat
  | [] => ([], [])
  | b :: rest =>
    if b = 10 then ([b], rest)
    else
      let p := readUntil rest
      (b :: p.1, p.2)

mutual

/-- Validity of a byte sequence as UTF-8, exactly as Rust's
`String::from_utf8` checks it (overlong encodings, surrogates and
code points above U+10FFFF are rejected).  The first byte selects how
many continuation bytes follow and the allowed range of the first one. -/
def isValidUtf8 : List Nat → Bool
  | [] => true
  | b :: rest =>
    if b ≤ 127 then isValidUtf8 rest
    else if 194 ≤ b && b ≤ 223 then utf8After1 128 191 rest
    else if b = 224 then utf8After2 160 191 rest
    else if 225 ≤ b && b ≤ 236 then utf8After2 128 191 rest
    else if b = 237 then utf8After2 128 159 rest
    else if 238 ≤ b && b ≤ 239 then utf8After2 128 191 rest
    else if b = 240 then utf8After3 144 191 rest
    else if 241 ≤ b && b ≤ 243 then utf8After3 128 191 rest
    else if b = 244 then utf8After3 128 143 rest
    else false
termination_by structural s => s

/-- One continuation byte in `lo..=hi`, then a valid tail. -/
def utf8After1 (lo hi : Nat) : List Nat → Bool
  | c :: r => lo ≤ c && c ≤ hi && isValidUtf8 r
  | [] => false
termination_by structural s => s

/-- A byte in `lo..=hi`, one more continuation byte, then a valid tail. -/
def utf8After2 (lo hi : Nat) : List Nat → Bool
  | c :: r => lo ≤ c && c ≤ hi && utf8After1 128 191 r
  | [] => false
termination_by structural s => s

/-- A byte in `lo..=hi`, two more continuation bytes, then a valid tail. -/
def utf8After3 (lo hi : Nat) : List Nat → Bool
  | c :: r => lo ≤ c && c ≤ hi && utf8After2 128 191 r
  | [] => false
termination_by structural s => s

end

/-- The local `read_line` helper of `Type::read`: read one line, demand at
least two bytes ending in CRLF, strip the CRLF, and UTF-8-validate what is
left.  Returns the line (without CRLF) and the unconsumed stream. -/
def readLine (src : List Nat) : Except DecodeError (List Nat × List Nat) :=
  let p := readUntil src
  if p.1.length = 0 then .error .unexpectedEof
  else if p.1.length < 2 || decide (p.1.drop (p.1.length - 2) ≠ CRLF) then
    .error .expectedLine
  else if isValidUtf8 (p.1.take (p.1.length - 2)) then
    .ok (p.1.take (p.1.length - 2), p.2)
  else .error .invalidUtf8

/-- Whether `b` is an ASCII decimal digit byte. -/
def isDigit (b : Nat) : Bool := 48 ≤ b && b ≤ 57

/-- Numeric value of a string of decimal digit bytes, most significant
first. -/
def decToNat (ds : List Nat) : Nat :=
  ds.foldl (fun a d => a * 10 + (d - 48)) 0

/-- `str::parse::<usize>` on bytes: optional `+` sign, then a nonempty
run of digits, rejecting values outside `usize` (64-bit). -/
def parseUsize (s : List Nat) : Option Nat :=
  let ds := if s.head? = some 43 then s.tail else s
  if ds = [] || !ds.all isDigit then none
  else if decToNat ds < 2 ^ 64 then some (decToNat ds) else none

/-- `str::parse::<i64>` on bytes: optional sign, then a nonempty run of
digits, rejecting values outside `i64`. -/
def parseI64 (s : List Nat) : Option Int :=
  let neg := s.head? = some 45
  let ds := if s.head? = some 43 || s.head? = some 45 then s.tail else s
  if ds = [] || !ds.all isDigit then none
  else if neg then
    if decToNat ds ≤ 2 ^ 63 then some (-(decToNat ds : Int)) else none
  else
    if decToNat ds < 2 ^ 63 then some (decToNat ds : Int) else none

/-- The `for _ in 0..len` loop of the `Array` arm of `Type::read`: decode
`n` values in sequence with the reader `rd`, threading the stream. -/
def readN (rd : List Nat → Except DecodeError (RespType × List Nat)) :
    Nat → List Nat → Except DecodeError (List RespType × List Nat)
  | 0, src => .ok ([], src)
  | n + 1, src =>
    match rd src with
    | .error e => .error e
    | .ok (v, rest) =>
      match readN rd n rest with
      | .error e => .error e
      | .ok (vs, rest1) => .ok (v :: vs, rest1)

/-- `Type::read` (src/resp.rs), with explicit recursion fuel.  Every
recursive call happens on a stream at least two bytes shorter (a
successful `read_line` consumes the line plus its CRLF), so fuel equal to
the stream length is never exhausted; `RespType.read` below supplies it,
and `readFuel_eq_read` proves any sufficient fuel gives the same result. -/
def readFuel : Nat → List Nat → Except DecodeError (RespType × List Nat)
  | 0, _ => .error .unexpectedEof
  | fuel + 1, src =>
    match readLine src with
    | .error e => .error e
    | .ok (line, rest) =>
      if line.head? = some 43 then .ok (.simpleString line.tail, rest)
      else if line.head? = some 45 then .ok (.error line.tail, rest)
      else if line.head? = some 58 then
        match parseI64 line.tail with
        | some n => .ok (.integer n, rest)
        | none => .error .invalidInt
      else if line.head? = some 36 then
        if line = [36, 45, 49] then .ok (.null, rest)
        else
          match parseUsize line.tail with
          | none => .error .invalidInt
          | some len =>
            if rest.length < len + 2 then .error .readEof
            else if (rest.take (len + 2)).drop len ≠ CRLF then
              .error .expectedLine
            else if isValidUtf8 ((rest.take (len + 2)).take len) then
              .ok (.bulkString ((rest.take (len + 2)).take len),
                   rest.drop (len + 2))
            else .error .invalidUtf8
      else if line.head? = some 42 then
        if line = [42, 45, 49] then .ok (.null, rest)
        else
          match parseUsize line.tail with
          | none => .error .invalidInt
          | some len =>
            match readN (readFuel fuel) len rest with
            | .error e => .error e
            | .ok (vs, rest1) => .ok (.array vs, rest1)
      else .error .unknownType
termination_by structural n => n

/-- `Type::read`: decode exactly one frame from the front of the stream,
returning the value and the unconsumed rest of the stream. -/
def RespType.read (src : List Nat) : Except DecodeError (RespType × List Nat) :=
  readFuel src.length src

mutual

/-- The values the Rust program can actually build and that survive the
wire unchanged.  `integer` in `i64` range, lengths within `usize` and
UTF-8-valid texts restate the invariants of Rust's `i64`, `Vec`/`String`
and `String` types; the one genuine restriction is that a `SimpleString`
or `Error` text must not contain a line-feed byte (10), since its line is
read back with `read_until(b'\n')`. -/
def Encodable : RespType → Bool
  | .simpleString s => !s.contains 10 && isValidUtf8 s
  | .error s => !s.contains 10 && isValidUtf8 s
  | .integer n => decide (-(2 ^ 63) ≤ n) && decide (n < 2 ^ 63)
  | .bulkString s => isValidUtf8 s && decide (s.length < 2 ^ 64)
  | .null => true
  | .array xs => decide (xs.length < 2 ^ 64) && EncodableList xs
termination_by structural v => v

/-- `Encodable` on every element of a list. -/
def EncodableList : List RespType → Bool
  | [] => true
  | x :: xs => Encodable x && EncodableList xs
termination_by structural xs => xs

end

/-- One call `Type::write` makes on the underlying stream: a buffered
write of some bytes, or the final flush. -/
inductive WEvent where
  | wr (bytes : List Nat)
  | flush
  deriving Repr, DecidableEq

/-- The three `write_u8`/`write_all` calls of the local `write_line`
helper, as events. -/
def writeLineEvents (tag : Nat) (buf : List Nat) : List WEvent :=
  [.wr [tag], .wr buf, .wr CRLF]

mutual

/-- The stream operations `Type::write_buf` performs, in order.  It only
ever writes into the `BufWriter`; it never flushes. -/
def writeBufEvents : RespType → List WEvent
  | .simpleString s => writeLineEvents 43 s
  | .error s => writeLineEvents 45 s
  | .integer n => writeLineEvents 58 (intToDec n)
  | .bulkString s => writeLineEvents 36 (natToDec s.length) ++ [.wr s, .wr CRLF]
  | .array xs => writeLineEvents 42 (natToDec xs.length) ++ writeBufEventsList xs
  | .null => writeLineEvents 36 [45, 49]
termination_by structural v => v

/-- Events of the `for elem in elements` loop of the `Array` arm. -/
def writeBufEventsList : List RespType → List WEvent
  | [] => []
  | x :: xs => writeBufEvents x ++ writeBufEventsList xs
termination_by structural xs => xs

end

/-- `Type::write` (src/resp.rs): wrap the destination in a `BufWriter`,
run `write_buf`, then flush once. -/
def RespType.write (v : RespType) : List WEvent :=
  writeBufEvents v ++ [.flush]

/-- The bytes carried by a write event (`none` for the flush). -/
def WEvent.bytes? : WEvent → Option (List Nat)
  | .wr b => some b
  | .flush => none

/-- What one iteration of the dispatch loop in `listen` (src/conn.rs)
does with the outcome of `Type::read`. -/
inductive LoopAction where
  /-- `break`: leave the loop, dropping the connection. -/
  | closed
  /-- `eprintln!("could not read command: ...")` then `continue`. -/
  | logAndContinue (e : DecodeError)
  /-- `tokio::spawn(handler(conn, cmd))` with the decoded value. -/
  | dispatch (v : RespType)
  deriving Repr

/-- Boolean equality on `LoopAction`, for the decidability instance. -/
def LoopAction.beq : LoopAction → LoopAction → Bool
  | .closed, .closed => true
  | .logAndContinue e, .logAndContinue f => e == f
  | .dispatch v, .dispatch w => RespType.beq v w
  | _, _ => false

/-- The `match Type::read(..)` at the top of the dispatch loop: a decoded
value is handed to a fresh handler task; an error downcasting to
`resp::Error::UnexpectedEof` breaks the loop; every other error is logged
and the loop continues. -/
def listenStep : Except DecodeError (RespType × List Nat) → LoopAction
  | .ok (v, _) => .dispatch v
  | .error e => if e = .unexpectedEof then .closed else .logAndContinue e

/-- Phase of one task calling a `Conn::write_*` method: still waiting on
`lock().await` with its encoded frame `p` pending, holding the
`tokio::sync::Mutex` with `r` of its bytes not yet emitted to the socket,
or finished (lock released). -/
inductive WPhase where
  | start (p : List Nat)
  | writing (r : List Nat)
  | done
  deriving Repr, DecidableEq

/-- The shared connection during two concurrent writer-handle writes
(`Conn` of src/conn.rs holds `Arc<Mutex<BufWriter<OwnedWriteHalf>>>`):
the bytes that have reached the socket, who holds the mutex, and the two
writer tasks' phases. -/
structure ConnState where
  out : List Nat
  lock : Option Bool
  wa : WPhase
  wb : WPhase
  deriving Repr

/-- Interleaving semantics of two `Conn::write_*` calls.  A task may
acquire the free mutex, emit any next chunk of its frame to the socket
while holding it (`Type::write` writes into the `BufWriter` and flushes,
all before the lock guard is dropped), and release the mutex only once
its whole frame is out. -/
inductive WStep : ConnState → ConnState → Prop where
  | acquireA (out p b) :
      WStep ⟨out, none, .start p, b⟩ ⟨out, some false, .writing p, b⟩
  | acquireB (out p a) :
      WStep ⟨out, none, a, .start p⟩ ⟨out, some true, a, .writing p⟩
  | emitA (out c r b) :
      WStep ⟨out, some false, .writing (c ++ r), b⟩
            ⟨out ++ c, some false, .writing r, b⟩
  | emitB (out c r a) :
      WStep ⟨out, some true, a, .writing (c ++ r)⟩
            ⟨out ++ c, some true, a, .writing r⟩
  | releaseA (out b) :
      WStep ⟨out, some false, .writing [], b⟩ ⟨out, none, .done, b⟩
  | releaseB (out a) :
      WStep ⟨out, some true, a, .writing []⟩ ⟨out, none, a, .done⟩

/-- Reachability under `WStep`. -/
def Reach : ConnState → ConnState → Prop := Relation.ReflTransGen WStep

/-- Invariant of the two-writer interleaving: at every reachable state the
socket holds, in order, the part of the traffic already emitted — whole
frames of whichever writer finished first, then a prefix of the frame of
the writer holding the mutex.  `p` and `q` are the two frames. -/
def WInv (p q : List Nat) (s : ConnState) : Prop :=
  s = ⟨[], none, .start p, .start q⟩ ∨
  (∃ t r, p = t ++ r ∧ s = ⟨t, some false, .writing r, .start q⟩) ∨
  s = ⟨p, none, .done, .start q⟩ ∨
  (∃ t r, q = t ++ r ∧ s = ⟨p ++ t, some true, .done, .writing r⟩) ∨
  s = ⟨p ++ q, none, .done, .done⟩ ∨
  (∃ t r, q = t ++ r ∧ s = ⟨t, some true, .start p, .writing r⟩) ∨
  s = ⟨q, none, .start p, .done⟩ ∨
  (∃ t r, p = t ++ r ∧ s = ⟨q ++ t, some false, .writing r, .done⟩) ∨
  s = ⟨q ++ p, none, .done, .done⟩

/-! ## Decidability of equality -/

/-- Induction over `RespType` with the array case receiving the inductive
hypothesis for every element of the nested list. -/
theorem RespType.myRec (P : RespType → Prop)
    (h1 : ∀ s, P (.simpleString s)) (h2 : ∀ s, P (.error s))
    (h3 : ∀ n, P (.integer n)) (h4 : ∀ s, P (.bulkString s))
    (h5 : P .null)
    (h6 : ∀ xs, (∀ x ∈ xs, P x) → P (.array xs)) : ∀ v, P v :=
  @RespType.rec P (fun xs => ∀ x ∈ xs, P x) h1 h2 h3 h4 h5 h6
    (by simp)
    (by
      intro x xs hx hxs y hy
      rcases List.mem_cons.mp hy with rfl | hy
      · exact hx
      · exact hxs y hy)

theorem respTypeBeq_iff : ∀ a b : RespType, (RespType.beq a b = true) ↔ a = b := by
  intro a
  induction a using RespType.myRec with
  | h1 s => intro b; cases b <;> simp [RespType.beq]
  | h2 s => intro b; cases b <;> simp [RespType.beq]
  | h3 n => intro b; cases b <;> simp [RespType.beq]
  | h4 s => intro b; cases b <;> simp [RespType.beq]
  | h5 => intro b; cases b <;> simp [RespType.beq]
  | h6 xs ih =>
    intro b
    cases b <;> simp [RespType.beq]
    rename_i ys
    induction xs generalizing ys with
    | nil => cases ys <;> simp [RespType.beqList]
    | cons x xs ihx =>
      cases ys with
      | nil => simp [RespType.beqList]
      | cons y ys =>
        simp [RespType.beqList, ih x (by simp)]
        exact fun _ => ihx (fun z hz => ih z (by simp [hz])) ys

instance : DecidableEq RespType := fun a b =>
  decidable_of_iff (RespType.beq a b = true) (respTypeBeq_iff a b)

instance {ε α : Type} [DecidableEq ε] [DecidableEq α] : DecidableEq (Except ε α) := fun
  | .error x, .error y => decidable_of_iff (x = y) (by simp)
  | .error _, .ok _ => isFalse (by simp)
  | .ok _, .error _ => isFalse (by simp)
  | .ok x, .ok y => decidable_of_iff (x = y) (by simp)

theorem loopActionBeq_iff : ∀ a b : LoopAction, (LoopAction.beq a b = true) ↔ a = b := by
  intro a b
  cases a <;> cases b <;> simp [LoopAction.beq, respTypeBeq_iff]

instance : DecidableEq LoopAction := fun a b =>
  decidable_of_iff (LoopAction.beq a b = true) (loopActionBeq_iff a b)

/-! ## Decimal printing and parsing -/

theorem digitsLE_eq_digits : ∀ fuel n, n ≤ fuel → digitsLE fuel n = Nat.digits 10 n := by
  intro fuel
  induction fuel with
  | zero => intro n hn; interval_cases n; simp [digitsLE]
  | succ fuel ih =>
    intro n hn
    match n with
    | 0 => simp [digitsLE]
    | m + 1 =>
      rw [digitsLE, Nat.digits_def' (by norm_num : 1 < 10) (Nat.succ_pos m)]
      rw [ih ((m + 1) / 10) (by omega)]

theorem foldr_eq_ofDigits : ∀ L : List Nat,
    L.foldr (fun d a => a * 10 + d) 0 = Nat.ofDigits 10 L := by
  intro L
  induction L with
  | nil => simp [Nat.ofDigits]
  | cons d L ih => simp [Nat.ofDigits_cons, ih]; ring

theorem decToNat_map_add48 : ∀ (L : List Nat) (a : Nat),
    (L.map (fun d => d + 48)).foldl (fun a d => a * 10 + (d - 48)) a =
      L.foldl (fun a d => a * 10 + d) a := by
  intro L
  induction L with
  | nil => intro a; simp
  | cons d L ih => intro a; simp [ih]

theorem decToNat_natToDec (n : Nat) : decToNat (natToDec n) = n := by
  by_cases h : n = 0
  · subst h; decide
  · rw [natToDec, if_neg h, digitsLE_eq_digits n n le_rfl, decToNat,
      decToNat_map_add48, List.foldl_reverse, foldr_eq_ofDigits,
      Nat.ofDigits_digits]

theorem natToDec_mem (n : Nat) : ∀ b ∈ natToDec n, 48 ≤ b ∧ b ≤ 57 := by
  intro b hb
  rw [natToDec] at hb
  by_cases h : n = 0
  · rw [if_pos h] at hb; simp at hb; omega
  · rw [if_neg h, digitsLE_eq_digits n n le_rfl] at hb
    simp only [List.mem_map, List.mem_reverse] at hb
    obtain ⟨d, hd, rfl⟩ := hb
    have := Nat.digits_lt_base (by norm_num) hd
    omega

theorem natToDec_ne_nil (n : Nat) : natToDec n ≠ [] := by
  rw [natToDec]
  by_cases h : n = 0
  · rw [if_pos h]; simp
  · rw [if_neg h, digitsLE_eq_digits n n le_rfl]
    simp [Nat.digits_ne_nil_iff_ne_zero, h]

theorem natToDec_no10 (n : Nat) : 10 ∉ natToDec n := by
  intro hmem
  have := natToDec_mem n 10 hmem
  omega

theorem natToDec_all_digits (n : Nat) : (natToDec n).all isDigit = true := by
  rw [List.all_eq_true]
  intro b hb
  have := natToDec_mem n b hb
  simp [isDigit]; omega

theorem parseUsize_digits (s : List Nat) (hne : s ≠ [])
    (hd : ∀ b ∈ s, 48 ≤ b ∧ b ≤ 57) :
    parseUsize s = if decToNat s < 2 ^ 64 then some (decToNat s) else none := by
  match s with
  | [] => exact absurd rfl hne
  | b :: t =>
    have hb := hd b (by simp)
    have hb43 : ¬(b = 43) := by omega
    have ha : (b :: t).all isDigit = true := by
      rw [List.all_eq_true]; intro x hx; have := hd x hx; simp [isDigit]; omega
    have hcond : (decide ((b :: t) = []) || !(b :: t).all isDigit) = false := by
      rw [ha]; simp
    simp only [parseUsize, List.head?_cons, Option.some.injEq]
    rw [if_neg hb43, if_neg (by rw [hcond]; simp)]

theorem parseUsize_natToDec (n : Nat) (h : n < 2 ^ 64) :
    parseUsize (natToDec n) = some n := by
  rw [parseUsize_digits _ (natToDec_ne_nil n) (natToDec_mem n),
    decToNat_natToDec, if_pos h]

theorem parseI64_intToDec (n : Int) (h1 : -(2 ^ 63) ≤ n) (h2 : n < 2 ^ 63) :
    parseI64 (intToDec n) = some n := by
  by_cases hneg : n < 0
  · rw [intToDec, if_pos hneg]
    have hne := natToDec_ne_nil n.natAbs
    have hd := natToDec_mem n.natAbs
    match hnd : natToDec n.natAbs with
    | [] => exact absurd hnd hne
    | b :: t =>
      have ha : (b :: t).all isDigit = true := by
        rw [List.all_eq_true]; intro x hx
        have := hd x (by rw [hnd]; exact hx)
        simp [isDigit]; omega
      have hval : decToNat (b :: t) = n.natAbs := by
        rw [← hnd, decToNat_natToDec]
      have hle : n.natAbs ≤ 2 ^ 63 := by omega
      have habs : (n.natAbs : Int) = -n := by
        rw [Int.ofNat_natAbs_of_nonpos (by omega)]
      simp [parseI64, ha, hval, hle, habs]
      all_goals omega
  · push_neg at hneg
    rw [intToDec, if_neg (by omega)]
    have hne := natToDec_ne_nil n.toNat
    have hd := natToDec_mem n.toNat
    match hnd : natToDec n.toNat with
    | [] => exact absurd hnd hne
    | b :: t =>
      have hb := hd b (by rw [hnd]; simp)
      have hb43 : ¬(b = 43) := by omega
      have hb45 : ¬(b = 45) := by omega
      have ha : (b :: t).all isDigit = true := by
        rw [List.all_eq_true]; intro x hx
        have := hd x (by rw [hnd]; exact hx)
        simp [isDigit]; omega
      have hval : decToNat (b :: t) = n.toNat := by
        rw [← hnd, decToNat_natToDec]
      have hlt : decToNat (b :: t) < 2 ^ 63 := by rw [hval]; omega
      have htn : ((n.toNat : Int)) = n := Int.toNat_of_nonneg hneg
      simp [parseI64, hb43, hb45, ha, hval, hlt, htn]
      all_goals omega

theorem intToDec_mem (n : Int) : ∀ b ∈ intToDec n, 45 ≤ b ∧ b ≤ 57 := by
  intro b hb
  rw [intToDec] at hb
  by_cases h : n < 0
  · rw [if_pos h] at hb
    rcases List.mem_cons.mp hb with rfl | hb
    · omega
    · have := natToDec_mem _ _ hb; omega
  · rw [if_neg h] at hb
    have := natToDec_mem _ _ hb; omega

/-! ## UTF-8 and line reading -/

theorem isValidUtf8_cons_ascii (b : Nat) (s : List Nat) (hb : b ≤ 127) :
    isValidUtf8 (b :: s) = isValidUtf8 s := by
  rw [isValidUtf8, if_pos hb]

theorem isValidUtf8_ascii (s : List Nat) (h : ∀ b ∈ s, b ≤ 127) :
    isValidUtf8 s = true := by
  induction s with
  | nil => rfl
  | cons b t ih =>
    rw [isValidUtf8_cons_ascii b t (h b (by simp))]
    exact ih fun x hx => h x (List.mem_cons_of_mem _ hx)

theorem readUntil_no10 : ∀ (l r : List Nat), 10 ∉ l →
    readUntil (l ++ 10 :: r) = (l ++ [10], r) := by
  intro l
  induction l with
  | nil => intro r _; simp [readUntil]
  | cons b t ih =>
    intro r h
    have hb : ¬(b = 10) := fun hb => h (by simp [hb])
    show readUntil (b :: (t ++ 10 :: r)) = ((b :: t) ++ [10], r)
    rw [readUntil, if_neg hb, ih r fun hm => h (List.mem_cons_of_mem _ hm)]
    simp

theorem readLine_ok (l rest : List Nat) (h10 : 10 ∉ l)
    (hu : isValidUtf8 l = true) :
    readLine (l ++ CRLF ++ rest) = .ok (l, rest) := by
  have hsplit : l ++ CRLF ++ rest = (l ++ [13]) ++ 10 :: rest := by
    simp [CRLF]
  have h10' : 10 ∉ l ++ [13] := by
    intro hm
    rcases List.mem_append.mp hm with hm | hm
    · exact h10 hm
    · simp at hm
  have hform : (l ++ [13]) ++ [10] = l ++ CRLF := by simp [CRLF]
  have key : readUntil (l ++ CRLF ++ rest) = (l ++ CRLF, rest) := by
    rw [hsplit, readUntil_no10 _ _ h10', hform]
  have hlen2 : (l ++ CRLF).length = l.length + 2 := by simp [CRLF]
  have hdrop : (l ++ CRLF).drop ((l ++ CRLF).length - 2) = CRLF := by
    rw [hlen2, Nat.add_sub_cancel, List.drop_left]
  have htake : (l ++ CRLF).take ((l ++ CRLF).length - 2) = l := by
    rw [hlen2, Nat.add_sub_cancel, List.take_left]
  have c1 : ((l ++ CRLF).length = 0) = False :=
    eq_false (by rw [hlen2]; omega)
  have c2 : ((l ++ CRLF).length < 2) = False :=
    eq_false (by rw [hlen2]; omega)
  have c3 : ((l ++ CRLF).drop ((l ++ CRLF).length - 2) ≠ CRLF) = False :=
    eq_false (by rw [hdrop]; simp)
  simp only [readLine, key, c1, c2, c3, htake, hu, decide_False,
    Bool.or_false, Bool.false_or, if_false, if_true, ite_false, ite_true]
  rfl

theorem readLine_writeLine (tag : Nat) (body rest : List Nat)
    (htag : tag ≤ 127) (htag10 : tag ≠ 10) (h10 : 10 ∉ body)
    (hu : isValidUtf8 body = true) :
    readLine (writeLine tag body ++ rest) = .ok (tag :: body, rest) := by
  have h : writeLine tag body ++ rest = (tag :: body) ++ CRLF ++ rest := by
    simp [writeLine]
  rw [h]
  refine readLine_ok _ _ ?_ ?_
  · intro hm
    rcases List.mem_cons.mp hm with h43 | hm
    · exact htag10 h43.symm
    · exact h10 hm
  · rw [isValidUtf8_cons_ascii _ _ htag]; exact hu

/-! ## Fuel adequacy: the fuel in `readFuel` is an artifact -/

theorem readUntil_split : ∀ src : List Nat,
    (readUntil src).1 ++ (readUntil src).2 = src := by
  intro src
  induction src with
  | nil => rfl
  | cons b t ih =>
    rw [readUntil]
    by_cases hb : b = 10
    · simp [hb]
    · simp only [if_neg hb]
      simpa using ih

theorem readLine_length (src line rest : List Nat)
    (h : readLine src = .ok (line, rest)) : rest.length + 2 ≤ src.length := by
  have hsplit := readUntil_split src
  simp only [readLine] at h
  split at h
  · exact absurd h (by simp)
  · split at h
    · exact absurd h (by simp)
    · split at h
      · rename_i hne hterm _
        simp only [Except.ok.injEq, Prod.mk.injEq] at h
        obtain ⟨-, h2⟩ := h
        subst h2
        simp only [Bool.or_eq_true, decide_eq_true_eq, not_or] at hterm
        have hge : 2 ≤ (readUntil src).1.length := by omega
        have := congrArg List.length hsplit
        rw [List.length_append] at this
        omega
      · exact absurd h (by simp)

theorem readFuel_consumes : ∀ fuel : Nat,
    (∀ src v rest, readFuel fuel src = .ok (v, rest) →
      rest.length < src.length) ∧
    (∀ n src vs rest, readN (readFuel fuel) n src = .ok (vs, rest) →
      rest.length ≤ src.length) := by
  intro fuel
  induction fuel with
  | zero =>
    have hfst : ∀ (src : List Nat) v rest,
        readFuel 0 src = .ok (v, rest) → rest.length < src.length := by
      intro src v rest h
      simp [readFuel] at h
    refine ⟨hfst, ?_⟩
    intro n
    induction n with
    | zero =>
      intro src vs rest h
      simp only [readN, Except.ok.injEq, Prod.mk.injEq] at h
      rw [← h.2]
    | succ n ihn =>
      intro src vs rest h
      simp [readN, readFuel] at h
  | succ fuel ih =>
    have hfst : ∀ (src : List Nat) v rest,
        readFuel (fuel + 1) src = .ok (v, rest) → rest.length < src.length := by
      intro src v rest h
      rw [readFuel] at h
      split at h
      · exact absurd h (by simp)
      · rename_i line rest0 heq
        have hlen := readLine_length _ _ _ heq
        repeat
          first
          | split at h
          | (simp only [Except.ok.injEq, Prod.mk.injEq] at h
             obtain ⟨-, h2⟩ := h
             subst h2
             try simp only [List.length_drop]
             omega)
          | (rename_i vs0 rest1 hr
             simp only [Except.ok.injEq, Prod.mk.injEq] at h
             obtain ⟨-, h2⟩ := h
             subst h2
             have := ih.2 _ _ _ _ hr
             omega)
          | simp at h
    refine ⟨hfst, ?_⟩
    intro n
    induction n with
    | zero =>
      intro src vs rest h
      simp only [readN, Except.ok.injEq, Prod.mk.injEq] at h
      rw [← h.2]
    | succ n ihn =>
      intro src vs rest h
      rw [readN] at h
      split at h
      · exact absurd h (by simp)
      · rename_i v0 rest0 heq
        split at h
        · exact absurd h (by simp)
        · rename_i vs0 rest1 heq2
          simp only [Except.ok.injEq, Prod.mk.injEq] at h
          obtain ⟨-, h2⟩ := h
          subst h2
          have h1 := hfst _ _ _ heq
          have h3 := ihn _ _ _ heq2
          omega

theorem readFuel_succ_eq : ∀ (fuel : Nat) (src : List Nat),
    src.length ≤ fuel → readFuel (fuel + 1) src = readFuel fuel src := by
  intro fuel
  induction fuel with
  | zero =>
    intro src h
    have hnil : src = [] := List.length_eq_zero.mp (Nat.le_zero.mp h)
    subst hnil
    decide
  | succ fuel ih =>
    intro src h
    have hext : ∀ (n : Nat) (s : List Nat), s.length ≤ fuel →
        readN (readFuel (fuel + 1)) n s = readN (readFuel fuel) n s := by
      intro n
      induction n with
      | zero => intro s _; rfl
      | succ n ihn =>
        intro s hs
        rw [readN, readN, ih s hs]
        cases hres : readFuel fuel s with
        | error e => rfl
        | ok p =>
          obtain ⟨v, rest⟩ := p
          have hlt := (readFuel_consumes fuel).1 s v rest hres
          simp only [ihn rest (by omega)]
    conv_lhs => rw [readFuel]
    conv_rhs => rw [readFuel]
    cases hres : readLine src with
    | error e => rfl
    | ok p =>
      obtain ⟨line, rest0⟩ := p
      have hb : rest0.length ≤ fuel := by
        have := readLine_length _ _ _ hres
        omega
      simp only [hext, hb]

theorem readFuel_eq_read : ∀ (f : Nat) (src : List Nat),
    src.length ≤ f → readFuel f src = RespType.read src := by
  intro f
  induction f with
  | zero =>
    intro src h
    have hnil : src = [] := List.length_eq_zero.mp (Nat.le_zero.mp h)
    subst hnil
    rfl
  | succ f ih =>
    intro src h
    by_cases hc : src.length ≤ f
    · rw [readFuel_succ_eq f src hc, ih src hc]
    · have hlen : src.length = f + 1 := by omega
      rw [RespType.read, hlen]

/-! ## The round trip -/

theorem natToDec_ascii (n : Nat) : isValidUtf8 (natToDec n) = true :=
  isValidUtf8_ascii _ fun b hb => by have := natToDec_mem n b hb; omega

theorem intToDec_ascii (n : Int) : isValidUtf8 (intToDec n) = true :=
  isValidUtf8_ascii _ fun b hb => by have := intToDec_mem n b hb; omega

theorem intToDec_no10 (n : Int) : 10 ∉ intToDec n := by
  intro hm
  have := intToDec_mem n 10 hm
  omega

theorem natToDec_ne_dash (n : Nat) : ¬(natToDec n = [45, 49]) := by
  intro h
  have : (45 : Nat) ∈ natToDec n := by rw [h]; simp
  have := natToDec_mem n 45 this
  omega

theorem natToDec_len_pos (n : Nat) : 1 ≤ (natToDec n).length :=
  List.length_pos.mpr (natToDec_ne_nil n)

theorem writeBuf_length_pos (v : RespType) : 1 ≤ (writeBuf v).length := by
  cases v <;> simp [writeBuf, writeLine, CRLF]

theorem encodableList_iff (xs : List RespType) :
    EncodableList xs = true ↔ ∀ x ∈ xs, Encodable x = true := by
  induction xs with
  | nil => simp [EncodableList]
  | cons x t ih => simp [EncodableList, ih]

/-- Reduction of one decode step on a well-formed header line: after
`read_line` returns `tag :: body`, `Type::read` is the tag dispatch. -/
theorem readFuel_header (f tag : Nat) (body rest : List Nat)
    (h1 : tag ≤ 127) (h2 : tag ≠ 10) (h3 : 10 ∉ body)
    (h4 : isValidUtf8 body = true) :
    readFuel (f + 1) (writeLine tag body ++ rest) =
      (if some tag = some 43 then .ok (.simpleString body, rest)
       else if some tag = some 45 then .ok (.error body, rest)
       else if some tag = some 58 then
         match parseI64 body with
         | some n => .ok (.integer n, rest)
         | none => .error .invalidInt
       else if some tag = some 36 then
         if tag :: body = [36, 45, 49] then .ok (.null, rest)
         else
           match parseUsize body with
           | none => .error .invalidInt
           | some len =>
             if rest.length < len + 2 then .error .readEof
             else if (rest.take (len + 2)).drop len ≠ CRLF then
               .error .expectedLine
             else if isValidUtf8 ((rest.take (len + 2)).take len) then
               .ok (.bulkString ((rest.take (len + 2)).take len),
                    rest.drop (len + 2))
             else .error .invalidUtf8
       else if some tag = some 42 then
         if tag :: body = [42, 45, 49] then .ok (.null, rest)
         else
           match parseUsize body with
           | none => .error .invalidInt
           | some len =>
             match readN (readFuel f) len rest with
             | .error e => .error e
             | .ok (vs, rest1) => .ok (.array vs, rest1)
       else .error .unknownType) := by
  rw [readFuel, readLine_writeLine tag body rest h1 h2 h3 h4]
  rfl

theorem readFuel_writeBuf :
    ∀ v, Encodable v = true → ∀ (rest : List Nat) (fuel : Nat),
      (writeBuf v ++ rest).length ≤ fuel →
      readFuel fuel (writeBuf v ++ rest) = .ok (v, rest) := by
  intro v
  induction v using RespType.myRec with
  | h1 s =>
    intro hv rest fuel hf
    simp only [Encodable, Bool.and_eq_true] at hv
    have h10 : 10 ∉ s := by simpa using hv.1
    obtain ⟨f, rfl⟩ : ∃ f, fuel = f + 1 := by
      have := writeBuf_length_pos (.simpleString s)
      cases fuel
      · exfalso; simp only [List.length_append] at hf; omega
      · exact ⟨_, rfl⟩
    simp only [writeBuf]
    rw [readFuel_header f 43 s rest (by omega) (by omega) h10 hv.2,
      if_pos rfl]
  | h2 s =>
    intro hv rest fuel hf
    simp only [Encodable, Bool.and_eq_true] at hv
    have h10 : 10 ∉ s := by simpa using hv.1
    obtain ⟨f, rfl⟩ : ∃ f, fuel = f + 1 := by
      have := writeBuf_length_pos (.error s)
      cases fuel
      · exfalso; simp only [List.length_append] at hf; omega
      · exact ⟨_, rfl⟩
    simp only [writeBuf]
    rw [readFuel_header f 45 s rest (by omega) (by omega) h10 hv.2,
      if_neg (by decide), if_pos rfl]
  | h3 n =>
    intro hv rest fuel hf
    simp only [Encodable, Bool.and_eq_true, decide_eq_true_eq] at hv
    obtain ⟨f, rfl⟩ : ∃ f, fuel = f + 1 := by
      have := writeBuf_length_pos (.integer n)
      cases fuel
      · exfalso; simp only [List.length_append] at hf; omega
      · exact ⟨_, rfl⟩
    simp only [writeBuf]
    rw [readFuel_header f 58 (intToDec n) rest (by omega) (by omega)
      (intToDec_no10 n) (intToDec_ascii n),
      if_neg (by decide), if_neg (by decide), if_pos rfl,
      parseI64_intToDec n hv.1 hv.2]
  | h4 s =>
    intro hv rest fuel hf
    simp only [Encodable, Bool.and_eq_true, decide_eq_true_eq] at hv
    obtain ⟨f, rfl⟩ : ∃ f, fuel = f + 1 := by
      have := writeBuf_length_pos (.bulkString s)
      cases fuel
      · exfalso; simp only [List.length_append] at hf; omega
      · exact ⟨_, rfl⟩
    have hstream : writeBuf (.bulkString s) ++ rest =
        writeLine 36 (natToDec s.length) ++ ((s ++ CRLF) ++ rest) := by
      simp [writeBuf]
    have hlen : ((s ++ CRLF) ++ rest).length = s.length + 2 + rest.length := by
      simp only [List.length_append, CRLF, List.length_cons, List.length_nil]
    have htkA : ((s ++ CRLF) ++ rest).take (s.length + 2) = s ++ CRLF :=
      List.take_left' (by simp [CRLF])
    have hdpA : ((s ++ CRLF) ++ rest).drop (s.length + 2) = rest :=
      List.drop_left' (by simp [CRLF])
    have htk2 : (s ++ CRLF).drop s.length = CRLF := List.drop_left s CRLF
    have htk3 : (s ++ CRLF).take s.length = s := List.take_left s CRLF
    rw [hstream, readFuel_header f 36 (natToDec s.length) _
      (by omega) (by omega) (natToDec_no10 _) (natToDec_ascii _),
      if_neg (by decide), if_neg (by decide), if_neg (by decide), if_pos rfl,
      if_neg (by simp [natToDec_ne_dash s.length]),
      parseUsize_natToDec s.length hv.2]
    simp only [hlen, htkA, htk2, htk3, hdpA]
    rw [if_neg (by omega), if_neg (not_not_intro rfl), if_pos hv.1]
  | h5 =>
    intro _ rest fuel hf
    obtain ⟨f, rfl⟩ : ∃ f, fuel = f + 1 := by
      have := writeBuf_length_pos .null
      cases fuel
      · exfalso; simp only [List.length_append] at hf; omega
      · exact ⟨_, rfl⟩
    simp only [writeBuf]
    rw [readFuel_header f 36 [45, 49] rest (by omega) (by omega)
      (by simp) (by decide),
      if_neg (by decide), if_neg (by decide), if_neg (by decide), if_pos rfl,
      if_pos rfl]
  | h6 xs ih =>
    intro hv rest fuel hf
    simp only [Encodable, Bool.and_eq_true, decide_eq_true_eq] at hv
    obtain ⟨f, rfl⟩ : ∃ f, fuel = f + 1 := by
      have := writeBuf_length_pos (.array xs)
      cases fuel
      · exfalso; simp only [List.length_append] at hf; omega
      · exact ⟨_, rfl⟩
    have inner : ∀ (ys : List RespType) (rest1 : List Nat),
        (∀ x ∈ ys, x ∈ xs) → EncodableList ys = true →
        (writeBufList ys ++ rest1).length ≤ f →
        readN (readFuel f) ys.length (writeBufList ys ++ rest1) =
          .ok (ys, rest1) := by
      intro ys
      induction ys with
      | nil => intro rest1 _ _ _; simp [readN, writeBufList]
      | cons y t iht =>
        intro rest1 hmem henc hlen1
        rw [encodableList_iff] at henc
        have hsplit : writeBufList (y :: t) ++ rest1 =
            writeBuf y ++ (writeBufList t ++ rest1) := by
          simp [writeBufList]
        have hy : readFuel f (writeBuf y ++ (writeBufList t ++ rest1)) =
            .ok (y, writeBufList t ++ rest1) := by
          refine ih y (hmem y (by simp)) (henc y (by simp)) _ f ?_
          rw [← hsplit]; exact hlen1
        have ht : readN (readFuel f) t.length (writeBufList t ++ rest1) =
            .ok (t, rest1) := by
          refine iht _ (fun x hx => hmem x (by simp [hx]))
            (by rw [encodableList_iff]; exact fun x hx => henc x (by simp [hx]))
            ?_
          rw [hsplit, List.length_append] at hlen1
          rw [List.length_append] at hlen1 ⊢
          omega
        rw [hsplit]
        simp [readN, hy, ht]
    have hstream : writeBuf (.array xs) ++ rest =
        writeLine 42 (natToDec xs.length) ++ (writeBufList xs ++ rest) := by
      simp [writeBuf]
    have harith : (writeBufList xs ++ rest).length ≤ f := by
      rw [hstream] at hf
      have hd := natToDec_len_pos xs.length
      simp only [List.length_append, writeLine, CRLF, List.length_cons,
        List.length_nil] at hf ⊢
      omega
    have hrdn := inner xs rest (fun x hx => hx)
      hv.2 harith
    rw [hstream, readFuel_header f 42 (natToDec xs.length) _
      (by omega) (by omega) (natToDec_no10 _) (natToDec_ascii _),
      if_neg (by decide), if_neg (by decide), if_neg (by decide),
      if_neg (by decide), if_pos rfl,
      if_neg (by simp [natToDec_ne_dash xs.length]),
      parseUsize_natToDec xs.length hv.1]
    simp [hrdn]

/-! ## Shared decode helpers -/

/-- One frame decodes off the front of a stream, leaving the rest. -/
theorem read_writeBuf_append (v : RespType) (hv : Encodable v = true)
    (rest : List Nat) :
    RespType.read (writeBuf v ++ rest) = .ok (v, rest) :=
  readFuel_writeBuf v hv rest _ le_rfl

/-- A lone frame decodes to its value with nothing left over. -/
theorem read_writeBuf (v : RespType) (hv : Encodable v = true) :
    RespType.read (writeBuf v) = .ok (v, []) := by
  have h := read_writeBuf_append v hv []
  rwa [List.append_nil] at h

/-! ## The writer-handle interleaving model -/

theorem WInv_step (p q : List Nat) (s s' : ConnState)
    (hinv : WInv p q s) (hstep : WStep s s') : WInv p q s' := by
  cases hstep with
  | acquireA out p' b =>
    rcases hinv with h | ⟨t, r', hx, h⟩ | h | ⟨t, r', hx, h⟩ | h | ⟨t, r', hx, h⟩ | h | ⟨t, r', hx, h⟩ | h <;>
      simp only [ConnState.mk.injEq, WPhase.start.injEq, WPhase.writing.injEq,
        Option.some.injEq, reduceCtorEq, and_false, false_and, and_true,
        true_and] at h
    · obtain ⟨h1, h2, h3⟩ := h
      right; left
      exact ⟨[], p, by simp, by simp [h1, h2, h3]⟩
    · obtain ⟨h1, h2, h3⟩ := h
      right; right; right; right; right; right; right; left
      exact ⟨[], p, by simp, by simp [h1, h2, h3]⟩
  | acquireB out p' a =>
    rcases hinv with h | ⟨t, r', hx, h⟩ | h | ⟨t, r', hx, h⟩ | h | ⟨t, r', hx, h⟩ | h | ⟨t, r', hx, h⟩ | h <;>
      simp only [ConnState.mk.injEq, WPhase.start.injEq, WPhase.writing.injEq,
        Option.some.injEq, reduceCtorEq, and_false, false_and, and_true,
        true_and] at h
    · obtain ⟨h1, h2, h3⟩ := h
      right; right; right; right; right; left
      exact ⟨[], q, by simp, by simp [h1, h2, h3]⟩
    · obtain ⟨h1, h2, h3⟩ := h
      right; right; right; left
      exact ⟨[], q, by simp, by simp [h1, h2, h3]⟩
  | emitA out c r b =>
    rcases hinv with h | ⟨t, r', hx, h⟩ | h | ⟨t, r', hx, h⟩ | h | ⟨t, r', hx, h⟩ | h | ⟨t, r', hx, h⟩ | h <;>
      simp only [ConnState.mk.injEq, WPhase.start.injEq, WPhase.writing.injEq,
        Option.some.injEq, reduceCtorEq, and_false, false_and, and_true,
        true_and] at h
    · obtain ⟨h1, h2, h3⟩ := h
      right; left
      exact ⟨t ++ c, r, by rw [hx, ← h2]; simp, by simp [h1, h3]⟩
    · obtain ⟨h1, h2, h3⟩ := h
      right; right; right; right; right; right; right; left
      exact ⟨t ++ c, r, by rw [hx, ← h2]; simp, by simp [h1, h3]⟩
  | emitB out c r a =>
    rcases hinv with h | ⟨t, r', hx, h⟩ | h | ⟨t, r', hx, h⟩ | h | ⟨t, r', hx, h⟩ | h | ⟨t, r', hx, h⟩ | h <;>
      simp only [ConnState.mk.injEq, WPhase.start.injEq, WPhase.writing.injEq,
        Option.some.injEq, reduceCtorEq, and_false, false_and, and_true,
        true_and] at h
    · obtain ⟨h1, h2, h3⟩ := h
      right; right; right; left
      exact ⟨t ++ c, r, by rw [hx, ← h3]; simp, by simp [h1, h2]⟩
    · obtain ⟨h1, h2, h3⟩ := h
      right; right; right; right; right; left
      exact ⟨t ++ c, r, by rw [hx, ← h3]; simp, by simp [h1, h2]⟩
  | releaseA out b =>
    rcases hinv with h | ⟨t, r', hx, h⟩ | h | ⟨t, r', hx, h⟩ | h | ⟨t, r', hx, h⟩ | h | ⟨t, r', hx, h⟩ | h <;>
      simp only [ConnState.mk.injEq, WPhase.start.injEq, WPhase.writing.injEq,
        Option.some.injEq, reduceCtorEq, and_false, false_and, and_true,
        true_and] at h
    · obtain ⟨h1, h2, h3⟩ := h
      right; right; left
      simp [h1, h3, hx, ← h2]
    · obtain ⟨h1, h2, h3⟩ := h
      right; right; right; right; right; right; right; right
      simp [h1, h3, hx, ← h2]
  | releaseB out a =>
    rcases hinv with h | ⟨t, r', hx, h⟩ | h | ⟨t, r', hx, h⟩ | h | ⟨t, r', hx, h⟩ | h | ⟨t, r', hx, h⟩ | h <;>
      simp only [ConnState.mk.injEq, WPhase.start.injEq, WPhase.writing.injEq,
        Option.some.injEq, reduceCtorEq, and_false, false_and, and_true,
        true_and] at h
    · obtain ⟨h1, h2, h3⟩ := h
      right; right; right; right; left
      simp [h1, h2, hx, ← h3]
    · obtain ⟨h1, h2, h3⟩ := h
      right; right; right; right; right; right; left
      simp [h1, h2, hx, ← h3]

theorem WInv_reach (p q : List Nat) (s : ConnState)
    (h : Reach ⟨[], none, .start p, .start q⟩ s) : WInv p q s := by
  have h' : Relation.ReflTransGen WStep ⟨[], none, .start p, .start q⟩ s := h
  clear h
  induction h' with
  | refl => exact Or.inl rfl
  | tail _ hbc ih => exact WInv_step p q _ _ ih hbc

theorem WInv_final (p q : List Nat) (s : ConnState) (hinv : WInv p q s)
    (ha : s.wa = .done) (hb : s.wb = .done) :
    s.out = p ++ q ∨ s.out = q ++ p := by
  rcases hinv with h | ⟨t, r', hx, h⟩ | h | ⟨t, r', hx, h⟩ | h | ⟨t, r', hx, h⟩ | h | ⟨t, r', hx, h⟩ | h <;>
    subst h <;> simp_all

/-! ## Write-event facts -/

theorem writeBufEvents_no_flush : ∀ v : RespType, WEvent.flush ∉ writeBufEvents v := by
  intro v
  induction v using RespType.myRec with
  | h1 s => simp [writeBufEvents, writeLineEvents]
  | h2 s => simp [writeBufEvents, writeLineEvents]
  | h3 n => simp [writeBufEvents, writeLineEvents]
  | h4 s => simp [writeBufEvents, writeLineEvents]
  | h5 => simp [writeBufEvents, writeLineEvents]
  | h6 xs ih =>
    simp only [writeBufEvents, writeLineEvents, List.mem_append]
    rintro (h | h)
    · simp at h
    · induction xs with
      | nil => simp [writeBufEventsList] at h
      | cons y t iht =>
        rw [writeBufEventsList, List.mem_append] at h
        rcases h with h | h
        · exact ih y (by simp) h
        · exact iht (fun x hx => ih x (by simp [hx])) h

theorem writeBufEvents_bytes : ∀ v : RespType,
    ((writeBufEvents v).filterMap WEvent.bytes?).flatten = writeBuf v := by
  intro v
  induction v using RespType.myRec with
  | h1 s => simp [writeBufEvents, writeLineEvents, writeBuf, writeLine,
      WEvent.bytes?]
  | h2 s => simp [writeBufEvents, writeLineEvents, writeBuf, writeLine,
      WEvent.bytes?]
  | h3 n => simp [writeBufEvents, writeLineEvents, writeBuf, writeLine,
      WEvent.bytes?]
  | h4 s => simp [writeBufEvents, writeLineEvents, writeBuf, writeLine,
      WEvent.bytes?]
  | h5 => simp [writeBufEvents, writeLineEvents, writeBuf, writeLine,
      WEvent.bytes?]
  | h6 xs ih =>
    have hlist : ((writeBufEventsList xs).filterMap WEvent.bytes?).flatten =
        writeBufList xs := by
      induction xs with
      | nil => simp [writeBufEventsList, writeBufList]
      | cons y t iht =>
        rw [writeBufEventsList, writeBufList, List.filterMap_append,
          List.flatten_append, iht (fun x hx => ih x (by simp [hx])),
          ih y (by simp)]
    simp [writeBufEvents, writeLineEvents, writeBuf, writeLine,
      WEvent.bytes?, List.filterMap_append, hlist]

/-! ## Claims -/

/-- C1 (counterexample): the round trip as claimed fails on
`SimpleString "\n"`.  Its text contains no two-byte CRLF terminator, and
it is a value Rust can build (valid UTF-8), yet decoding its encoding
`"+\n\r\n"` stops at the first LF and reports a malformed line instead of
returning the value. -/
theorem c1_counterexample :
    RespType.read (writeBuf (.simpleString [10])) = .error .expectedLine ∧
    RespType.read (writeBuf (.simpleString [10])) ≠
      .ok (.simpleString [10], []) ∧
    Encodable (.simpleString [10]) = false := by decide

/-- C1 (amended): for every value the Rust program can build whose
SimpleString/Error texts contain no line-feed byte (`Encodable`),
decoding the encoding yields the value back exactly. -/
theorem c1_roundtrip (v : RespType) (hv : Encodable v = true) :
    RespType.read (writeBuf v) = .ok (v, []) :=
  read_writeBuf v hv

/-- C1 witness: the round trip at a depth-5 nested array covering every
variant. -/
theorem c1_roundtrip_witness :
    Encodable (.array [.array [.array [.array [.array
        [.simpleString [104, 105]], .integer (-42)], .bulkString [10]],
        .null], .error []]) = true ∧
    RespType.read (writeBuf (.array [.array [.array [.array [.array
        [.simpleString [104, 105]], .integer (-42)], .bulkString [10]],
        .null], .error []])) =
      .ok (.array [.array [.array [.array [.array
        [.simpleString [104, 105]], .integer (-42)], .bulkString [10]],
        .null], .error []], []) :=
  ⟨by decide, c1_roundtrip _ (by decide)⟩

/-- C2 (counterexample): the claim promises two complete, *independently
decodable* frames for any two concurrent writer-handle writes.  But
`Conn::write_error("\n")` is a legal write whose frame `"-\n\r\n"` is not
decodable (the C1/C5 line-feed defect).  In the schedule below writer A
performs exactly that write and writer B writes `Integer 1`; the socket
ends with the two frames whole and in order, yet neither the stream nor
A's lone frame decodes. -/
theorem c2_counterexample :
    Reach ⟨[], none, .start (writeBuf (.error [10])),
        .start (writeBuf (.integer 1))⟩
      ⟨writeBuf (.error [10]) ++ writeBuf (.integer 1), none, .done, .done⟩ ∧
    RespType.read (writeBuf (.error [10])) = .error .expectedLine ∧
    RespType.read (writeBuf (.error [10]) ++ writeBuf (.integer 1)) =
      .error .expectedLine := by
  refine ⟨?_, by decide, by decide⟩
  have h1 : WStep ⟨[], none, .start [45, 10, 13, 10], .start [58, 49, 13, 10]⟩
      ⟨[], some false, .writing [45, 10, 13, 10], .start [58, 49, 13, 10]⟩ :=
    WStep.acquireA _ _ _
  have h2 : WStep ⟨[], some false, .writing [45, 10, 13, 10], .start [58, 49, 13, 10]⟩
      ⟨[45, 10, 13, 10], some false, .writing [], .start [58, 49, 13, 10]⟩ := by
    have h := WStep.emitA [] [45, 10, 13, 10] [] (.start [58, 49, 13, 10])
    simpa using h
  have h3 : WStep ⟨[45, 10, 13, 10], some false, .writing [], .start [58, 49, 13, 10]⟩
      ⟨[45, 10, 13, 10], none, .done, .start [58, 49, 13, 10]⟩ :=
    WStep.releaseA _ _
  have h4 : WStep ⟨[45, 10, 13, 10], none, .done, .start [58, 49, 13, 10]⟩
      ⟨[45, 10, 13, 10], some true, .done, .writing [58, 49, 13, 10]⟩ :=
    WStep.acquireB _ _ _
  have h5 : WStep ⟨[45, 10, 13, 10], some true, .done, .writing [58, 49, 13, 10]⟩
      ⟨[45, 10, 13, 10, 58, 49, 13, 10], some true, .done, .writing []⟩ := by
    have h := WStep.emitB [45, 10, 13, 10] [58, 49, 13, 10] [] .done
    simpa using h
  have h6 : WStep ⟨[45, 10, 13, 10, 58, 49, 13, 10], some true, .done, .writing []⟩
      ⟨[45, 10, 13, 10, 58, 49, 13, 10], none, .done, .done⟩ :=
    WStep.releaseB _ _
  exact Relation.ReflTransGen.head h1 (Relation.ReflTransGen.head h2
    (Relation.ReflTransGen.head h3 (Relation.ReflTransGen.head h4
      (Relation.ReflTransGen.head h5 (Relation.ReflTransGen.head h6
        Relation.ReflTransGen.refl)))))

/-- C2 (amended): for *any* two concurrent writer-handle writes the bytes
on the socket are the two complete encoded frames in one order or the
other — never a byte-level interleaving; and whenever both values are
Rust-representable with line-feed-free SimpleString/Error texts (the
C1/C5 proviso), the two frames are additionally independently decodable,
each to its own value.  The mutex discipline of `Conn::write_*` is
modelled by `WStep`: bytes reach the socket only while holding the lock,
which is held from before the first byte of a frame until after its
flush. -/
theorem c2_writes_not_interleaved (v w : RespType) (s : ConnState)
    (hreach : Reach ⟨[], none, .start (writeBuf v), .start (writeBuf w)⟩ s)
    (ha : s.wa = .done) (hb : s.wb = .done) :
    (s.out = writeBuf v ++ writeBuf w ∨ s.out = writeBuf w ++ writeBuf v) ∧
    (Encodable v = true → Encodable w = true →
      (s.out = writeBuf v ++ writeBuf w ∧
        RespType.read s.out = .ok (v, writeBuf w) ∧
        RespType.read (writeBuf w) = .ok (w, [])) ∨
      (s.out = writeBuf w ++ writeBuf v ∧
        RespType.read s.out = .ok (w, writeBuf v) ∧
        RespType.read (writeBuf v) = .ok (v, []))) := by
  have hfin := WInv_final _ _ s (WInv_reach _ _ s hreach) ha hb
  refine ⟨hfin, fun hv hw => ?_⟩
  rcases hfin with h | h
  · exact Or.inl ⟨h, by rw [h]; exact read_writeBuf_append v hv _,
      read_writeBuf w hw⟩
  · exact Or.inr ⟨h, by rw [h]; exact read_writeBuf_append w hw _,
      read_writeBuf v hv⟩

/-- C2 witness: a concrete schedule (writer A: `Null`, then writer B:
`Integer 1`) reaching a final state with both frames whole on the wire
and, both values being encodable, decodable in order. -/
theorem c2_writes_not_interleaved_witness :
    ((ConnState.mk (writeBuf .null ++ writeBuf (.integer 1)) none
          .done .done).out = writeBuf .null ++ writeBuf (.integer 1) ∨
      (ConnState.mk (writeBuf .null ++ writeBuf (.integer 1)) none
          .done .done).out = writeBuf (.integer 1) ++ writeBuf .null) ∧
    (((ConnState.mk (writeBuf .null ++ writeBuf (.integer 1)) none
          .done .done).out = writeBuf .null ++ writeBuf (.integer 1) ∧
      RespType.read (ConnState.mk (writeBuf .null ++ writeBuf (.integer 1))
          none .done .done).out = .ok (.null, writeBuf (.integer 1)) ∧
      RespType.read (writeBuf (.integer 1)) = .ok (.integer 1, [])) ∨
    ((ConnState.mk (writeBuf .null ++ writeBuf (.integer 1)) none
          .done .done).out = writeBuf (.integer 1) ++ writeBuf .null ∧
      RespType.read (ConnState.mk (writeBuf .null ++ writeBuf (.integer 1))
          none .done .done).out = .ok (.integer 1, writeBuf .null) ∧
      RespType.read (writeBuf .null) = .ok (.null, []))) := by
  have h1 : WStep ⟨[], none, .start [36, 45, 49, 13, 10], .start [58, 49, 13, 10]⟩
      ⟨[], some false, .writing [36, 45, 49, 13, 10], .start [58, 49, 13, 10]⟩ :=
    WStep.acquireA _ _ _
  have h2 : WStep ⟨[], some false, .writing [36, 45, 49, 13, 10], .start [58, 49, 13, 10]⟩
      ⟨[36, 45, 49, 13, 10], some false, .writing [], .start [58, 49, 13, 10]⟩ := by
    have h := WStep.emitA [] [36, 45, 49, 13, 10] [] (.start [58, 49, 13, 10])
    simpa using h
  have h3 : WStep ⟨[36, 45, 49, 13, 10], some false, .writing [], .start [58, 49, 13, 10]⟩
      ⟨[36, 45, 49, 13, 10], none, .done, .start [58, 49, 13, 10]⟩ :=
    WStep.releaseA _ _
  have h4 : WStep ⟨[36, 45, 49, 13, 10], none, .done, .start [58, 49, 13, 10]⟩
      ⟨[36, 45, 49, 13, 10], some true, .done, .writing [58, 49, 13, 10]⟩ :=
    WStep.acquireB _ _ _
  have h5 : WStep ⟨[36, 45, 49, 13, 10], some true, .done, .writing [58, 49, 13, 10]⟩
      ⟨[36, 45, 49, 13, 10, 58, 49, 13, 10], some true, .done, .writing []⟩ := by
    have h := WStep.emitB [36, 45, 49, 13, 10] [58, 49, 13, 10] [] .done
    simpa using h
  have h6 : WStep ⟨[36, 45, 49, 13, 10, 58, 49, 13, 10], some true, .done, .writing []⟩
      ⟨[36, 45, 49, 13, 10, 58, 49, 13, 10], none, .done, .done⟩ :=
    WStep.releaseB _ _
  have htrace : Reach ⟨[], none, .start (writeBuf .null), .start (writeBuf (.integer 1))⟩
      (ConnState.mk (writeBuf .null ++ writeBuf (.integer 1)) none .done .done) :=
    Relation.ReflTransGen.head h1 (Relation.ReflTransGen.head h2
      (Relation.ReflTransGen.head h3 (Relation.ReflTransGen.head h4
        (Relation.ReflTransGen.head h5 (Relation.ReflTransGen.head h6
          Relation.ReflTransGen.refl)))))
  have h := c2_writes_not_interleaved .null (.integer 1) _ htrace rfl rfl
  exact ⟨h.1, h.2 (by decide) (by decide)⟩

/-- C3: both wire null forms decode to the single `Null` value, and
encoding `Null` always emits the bulk form `$-1` + CRLF. -/
theorem c3_null_wire_forms :
    RespType.read ([36, 45, 49] ++ CRLF) = .ok (.null, []) ∧
    RespType.read ([42, 45, 49] ++ CRLF) = .ok (.null, []) ∧
    writeBuf .null = [36, 45, 49] ++ CRLF := by decide

/-- C4 (counterexample): `"$3\r\nab\r\n"` declares length 3 while the
payload terminator sits at offset 2; the claim predicts the malformed-line
condition, but `read_exact` runs out of bytes first and the decoder fails
with the payload-read end-of-stream error instead. -/
theorem c4_counterexample :
    RespType.read [36, 51, 13, 10, 97, 98, 13, 10] = .error .readEof ∧
    RespType.read [36, 51, 13, 10, 97, 98, 13, 10] ≠ .error .expectedLine := by
  decide

/-- C4 (amended): when at least `declared + 2` payload bytes are
available and the two bytes at the declared offset are not CRLF, decoding
the BulkString frame fails with the malformed-line condition.  (With
fewer bytes available it fails with the payload-read end-of-stream error
instead — see the counterexample.) -/
theorem c4_bulk_length_mismatch (n : Nat) (hn : n < 2 ^ 64)
    (body : List Nat) (henough : n + 2 ≤ body.length)
    (hterm : (body.take (n + 2)).drop n ≠ CRLF) :
    RespType.read (writeLine 36 (natToDec n) ++ body) =
      .error .expectedLine := by
  obtain ⟨f, hf⟩ : ∃ f, (writeLine 36 (natToDec n) ++ body).length = f + 1 := by
    have hpos : 1 ≤ (writeLine 36 (natToDec n) ++ body).length := by
      simp only [List.length_append, writeLine, List.length_cons]
      omega
    exact ⟨(writeLine 36 (natToDec n) ++ body).length - 1, by omega⟩
  rw [RespType.read, hf, readFuel_header f 36 (natToDec n) body
    (by omega) (by omega) (natToDec_no10 n) (natToDec_ascii n),
    if_neg (by decide), if_neg (by decide), if_neg (by decide), if_pos rfl,
    if_neg (by simp [natToDec_ne_dash n]), parseUsize_natToDec n hn]
  have h1 : ¬(body.length < n + 2) := by omega
  simp [h1, hterm]

/-- C4 witness: declared length 1 against payload `"ab"` with the
terminator at offset 2. -/
theorem c4_bulk_length_mismatch_witness :
    (1 : Nat) < 2 ^ 64 ∧ 1 + 2 ≤ [97, 98, 13, 10].length ∧
    (([97, 98, 13, 10].take 3).drop 1 ≠ CRLF) ∧
    RespType.read (writeLine 36 (natToDec 1) ++ [97, 98, 13, 10]) =
      .error .expectedLine :=
  ⟨by decide, by decide, by decide,
    c4_bulk_length_mismatch 1 (by decide) _ (by decide) (by decide)⟩

/-- C5 (counterexample): the claim quantifies over every value, but for
`Error "\n"` (buildable in Rust, no CRLF in its text) decoding
`encode(v) ++ rest` does not return the value: it fails on the split
line. -/
theorem c5_counterexample :
    RespType.read (writeBuf (.error [10]) ++ [65]) = .error .expectedLine ∧
    RespType.read (writeBuf (.error [10]) ++ [65]) ≠
      .ok (.error [10], [65]) := by decide

/-- C5 (amended): for every `Encodable` value (SimpleString/Error texts
free of line feeds) and every trailing byte sequence, decode reads
exactly one frame and leaves the trailing bytes unconsumed, so successive
frames decode one at a time in arrival order. -/
theorem c5_reads_one_frame (v : RespType) (hv : Encodable v = true)
    (rest : List Nat) :
    RespType.read (writeBuf v ++ rest) = .ok (v, rest) :=
  read_writeBuf_append v hv rest

/-- C5 witness: an array frame followed by the start of a later frame. -/
theorem c5_reads_one_frame_witness :
    Encodable (.array [.integer (-7), .bulkString [104, 105]]) = true ∧
    RespType.read (writeBuf (.array [.integer (-7), .bulkString [104, 105]])
        ++ [43, 112, 13, 10]) =
      .ok (.array [.integer (-7), .bulkString [104, 105]], [43, 112, 13, 10]) :=
  ⟨by decide, c5_reads_one_frame _ (by decide) _⟩

/-- C6: an empty input fails with `UnexpectedEof`, a condition distinct
from every other decode failure; the samples show each other condition
arising from its own kind of bad input. -/
theorem c6_eof_distinguished :
    RespType.read [] = .error .unexpectedEof ∧
    DecodeError.unexpectedEof ≠ DecodeError.expectedLine ∧
    DecodeError.unexpectedEof ≠ DecodeError.invalidUtf8 ∧
    DecodeError.unexpectedEof ≠ DecodeError.invalidInt ∧
    DecodeError.unexpectedEof ≠ DecodeError.readEof ∧
    DecodeError.unexpectedEof ≠ DecodeError.unknownType ∧
    RespType.read [43, 97] = .error .expectedLine ∧
    RespType.read [58, 120, 13, 10] = .error .invalidInt ∧
    RespType.read [43, 255, 13, 10] = .error .invalidUtf8 ∧
    RespType.read [64, 13, 10] = .error .unknownType := by decide

/-- C7: `Type::write` flushes exactly once, as its final stream
operation, after every byte of the top-level value (children included, in
order) has been written; `write_buf` itself never flushes. -/
theorem c7_flush_once (v : RespType) :
    (RespType.write v).count .flush = 1 ∧
    (RespType.write v).getLast? = some .flush ∧
    ((RespType.write v).filterMap WEvent.bytes?).flatten = writeBuf v := by
  refine ⟨?_, ?_, ?_⟩
  · rw [RespType.write, List.count_append,
      List.count_eq_zero.mpr (writeBufEvents_no_flush v)]
    rfl
  · rw [RespType.write]
    exact List.getLast?_concat _
  · rw [RespType.write, List.filterMap_append, List.flatten_append]
    simp [WEvent.bytes?, writeBufEvents_bytes v]

/-- C8: the dispatch loop closes the connection exactly on the
`UnexpectedEof` decode failure (zero bytes read where a frame was
expected — e.g. an empty input), logs and keeps reading on every other
failure, and hands every decoded value to a fresh handler task. -/
theorem c8_close_exactly_on_eof :
    (∀ r : Except DecodeError (RespType × List Nat),
        listenStep r = .closed ↔ r = .error .unexpectedEof) ∧
    (∀ e : DecodeError, listenStep (.error e) =
        if e = .unexpectedEof then .closed else .logAndContinue e) ∧
    (∀ (v : RespType) (rest : List Nat),
        listenStep (.ok (v, rest)) = .dispatch v) ∧
    listenStep (RespType.read []) = .closed := by
  refine ⟨?_, fun e => rfl, fun v rest => rfl, by decide⟩
  intro r
  match r with
  | .ok (v, rest) => simp [listenStep]
  | .error e =>
    by_cases he : e = .unexpectedEof
    · subst he; simp [listenStep]
    · simp [listenStep, he]

/-- C10: a line holding only the terminator passes the line check (its
two bytes are CRLF), leaves an empty tag-less line, and decoding fails
with the unknown-type condition — not the malformed-line one. -/
theorem c10_empty_line_unknown_type :
    RespType.read CRLF = .error .unknownType ∧
    RespType.read CRLF ≠ .error .expectedLine ∧
    RespType.read (CRLF ++ [43, 104, 13, 10]) = .error .unknownType := by
  decide

end Redcon
